import Mathlib

/-!
Verification of the markdown post-processing tool `process_markdown.py`.

The tool is a sequence of line-oriented text transforms.  Documents are
strings; most transforms split on the newline character, manipulate the
resulting list of lines, and re-join with newlines.  We embed the Python
code shallowly: strings become `String`/`List Char`, line lists become
`List String`, fallible code returns `Except`, and the handful of regular
expressions are translated into equivalent explicit scanners (each scanner's
doc comment records the regex it implements).

All definitions are executable and kernel-reducible (no well-founded or
partial definitions on the evaluation paths used by concrete witnesses).
-/

/-! ### Python string and list primitives -/

/-- Model of Python `content.split('\n')` on character lists: splits at every
newline; the empty string yields `[[]]`; a trailing newline yields a trailing
empty piece. -/
def pySplitNlChars : List Char → List (List Char)
  | [] => [[]]
  | c :: cs =>
    if c = '\n' then [] :: pySplitNlChars cs
    else
      match pySplitNlChars cs with
      | [] => [[c]]
      | l :: ls => (c :: l) :: ls

/-- Model of Python `content.split('\n')`. -/
def pySplitNl (s : String) : List String :=
  (pySplitNlChars s.data).map String.mk

/-- Model of Python newline-join of a list of lines. -/
def pyJoinNl : List String → String
  | [] => ""
  | [l] => l
  | l :: ls => l ++ "\n" ++ pyJoinNl ls

/-- Model of Python `s.startswith(p)`. -/
def strStartsWith (s p : String) : Bool :=
  p.data.isPrefixOf s.data

/-- Substring occurrence test on character lists (Python `pat in s`). -/
def hasSubstrChars (pat : List Char) : List Char → Bool
  | [] => pat.isPrefixOf ([] : List Char)
  | c :: cs => pat.isPrefixOf (c :: cs) || hasSubstrChars pat cs

/-- Model of Python `pat in s` (substring containment). -/
def strContains (s pat : String) : Bool :=
  hasSubstrChars pat.data s.data

/-- Index of the first occurrence of `pat`, if any. -/
def pyFindChars (pat : List Char) : List Char → Option Nat
  | [] => if pat.isPrefixOf ([] : List Char) then some 0 else none
  | c :: cs =>
    if pat.isPrefixOf (c :: cs) then some 0
    else (pyFindChars pat cs).map (· + 1)

/-- Model of Python `s.find(pat)`: index of the first occurrence, `-1` if
absent. -/
def pyFind (s pat : String) : Int :=
  match pyFindChars pat.data s.data with
  | some n => (n : Int)
  | none => -1

/-- Model of Python `s.strip()` (whitespace on both ends removed). -/
def pyStrip (s : String) : String :=
  String.mk (((s.data.dropWhile Char.isWhitespace).reverse.dropWhile
    Char.isWhitespace).reverse)

/-- Model of Python `list.insert(i, a)` (negative indices count from the end,
indices are clamped into range). -/
def pyInsert {α : Type} (i : Int) (a : α) (l : List α) : List α :=
  let idx : Nat := if i < 0 then ((l.length : Int) + i).toNat else min i.toNat l.length
  l.take idx ++ a :: l.drop idx

/-- Model of Python `del l[a:b]` for non-negative `a`, `b`. -/
def pyDelRange {α : Type} (a b : Nat) (l : List α) : List α :=
  l.take a ++ l.drop (max a b)

/-- Model of Python `l[a:b]` for non-negative `a`, `b`. -/
def pySlice {α : Type} (a b : Nat) (l : List α) : List α :=
  (l.drop a).take (b - a)

/-- First index `j ≥ start` with `p (l[j])`, if any (models the inner
`for j in range(start, len(lines))` search loops). -/
def findIdxFrom {α : Type} (p : α → Bool) (l : List α) (start : Nat) : Option Nat :=
  match (l.drop start).findIdx? p with
  | some j => some (start + j)
  | none => none

/-! ### `move_to_top` (process_markdown.py lines 99–127)

The Python scan walks the lines with a current `start_index : Option Nat`.
A line starting with `start_pattern` opens a new section (closing any open
one at that line); when `end_pattern` is not `None`, a line starting with
`end_pattern` closes the open section (exclusive); an open section at the
end of the file is closed at `len(lines)`.  Matched sections are emitted
first, in file order, followed by the remaining lines in order. -/

/-- The guard `end_pattern is not None and line.startswith(end_pattern)` of
`move_to_top` (the section-closing test). -/
def isEndLine (endP : Option String) (l : String) : Bool :=
  match endP with
  | some e => strStartsWith l e
  | none => false

/-- Section scanner of `move_to_top`: translation of the `for i, line in
enumerate(lines)` loop plus the final `if start_index is not None` capture. -/
def scanSections (startP : String) (endP : Option String) :
    List String → Nat → Option Nat → List (Nat × Nat)
  | [], i, si =>
    match si with
    | some s => [(s, i)]
    | none => []
  | l :: ls, i, si =>
    if strStartsWith l startP then
      match si with
      | some s => (s, i) :: scanSections startP endP ls (i + 1) (some i)
      | none => scanSections startP endP ls (i + 1) (some i)
    else
      match si with
      | some s =>
        if isEndLine endP l then (s, i) :: scanSections startP endP ls (i + 1) none
        else scanSections startP endP ls (i + 1) (some s)
      | none => scanSections startP endP ls (i + 1) none

/-- Python `any(start <= i < end for start, end in sections)`. -/
def inSections (secs : List (Nat × Nat)) (i : Nat) : Bool :=
  secs.any (fun p => decide (p.1 ≤ i ∧ i < p.2))

/-- `move_to_top` at the line level: matched sections (in file order) are
concatenated and placed before the unmatched lines. -/
def move_to_top_lines (startP : String) (endP : Option String)
    (lines : List String) : List String :=
  let secs := scanSections startP endP lines 0 none
  (secs.map (fun p => pySlice p.1 p.2 lines)).flatten
    ++ (lines.enum.filter (fun q => !(inSections secs q.1))).map Prod.snd

/-- Model of `move_to_top(file_content, start_pattern, end_pattern)`;
`end_pattern = None` is modeled as `none`. -/
def move_to_top (content startP : String) (endP : Option String) : String :=
  pyJoinNl (move_to_top_lines startP endP (pySplitNl content))

/-! ### `move_to_bottom` (process_markdown.py lines 129–157)

Identical scan, except that the `elif` guard evaluates
`line.startswith(end_pattern)` without first testing `end_pattern is not
None`; when `end_pattern` is `None` this raises a `TypeError` on the first
line that does not start with `start_pattern`.  The function is therefore
embedded with an `Except` result. -/

/-- Section scanner of `move_to_bottom`: as `scanSections`, but reaching the
`elif` with `end_pattern = None` is the Python `TypeError` from
`line.startswith(None)`. -/
def scanSectionsB (startP : String) (endP : Option String) :
    List String → Nat → Option Nat → Except String (List (Nat × Nat))
  | [], i, si =>
    match si with
    | some s => .ok [(s, i)]
    | none => .ok []
  | l :: ls, i, si =>
    if strStartsWith l startP then
      match si with
      | some s => (scanSectionsB startP endP ls (i + 1) (some i)).map ((s, i) :: ·)
      | none => scanSectionsB startP endP ls (i + 1) (some i)
    else
      if endP.isNone then
        .error "TypeError: startswith first arg must be str, not None"
      else
        match si with
        | some s =>
          if isEndLine endP l then
            (scanSectionsB startP endP ls (i + 1) none).map ((s, i) :: ·)
          else scanSectionsB startP endP ls (i + 1) (some s)
        | none => scanSectionsB startP endP ls (i + 1) none

/-- `move_to_bottom` at the line level: matched sections are placed after the
unmatched lines. -/
def move_to_bottom_lines (startP : String) (endP : Option String)
    (lines : List String) : Except String (List String) :=
  (scanSectionsB startP endP lines 0 none).map (fun secs =>
    ((lines.enum.filter (fun q => !(inSections secs q.1))).map Prod.snd)
      ++ (secs.map (fun p => pySlice p.1 p.2 lines)).flatten)

/-- Model of `move_to_bottom(file_content, start_pattern, end_pattern)`. -/
def move_to_bottom (content startP : String) (endP : Option String) :
    Except String String :=
  (move_to_bottom_lines startP endP (pySplitNl content)).map pyJoinNl

/-! ### Structure of the scanned section list

The scan invariant: sections are emitted in increasing order, pairwise
disjoint, each nonempty.  From this, extracting the sections and prepending
them is a permutation of the document's lines. -/

/-- The section list is sorted, pairwise disjoint, nonempty per section, and
starts at or after `n`. -/
def SecsFrom : Nat → List (Nat × Nat) → Prop
  | _, [] => True
  | n, p :: rest => n ≤ p.1 ∧ p.1 < p.2 ∧ SecsFrom p.2 rest

theorem SecsFrom.mono {m n : Nat} {secs : List (Nat × Nat)}
    (h : SecsFrom m secs) (hnm : n ≤ m) : SecsFrom n secs := by
  cases secs with
  | nil => trivial
  | cons p rest =>
    simp only [SecsFrom] at h ⊢
    exact ⟨hnm.trans h.1, h.2.1, h.2.2⟩

theorem not_inSections_of_lt {n j : Nat} {secs : List (Nat × Nat)}
    (h : SecsFrom n secs) (hj : j < n) : inSections secs j = false := by
  induction secs generalizing n with
  | nil => rfl
  | cons p rest ih =>
    simp only [SecsFrom] at h
    simp only [inSections, List.any_cons, Bool.or_eq_false_iff]
    refine ⟨?_, ih h.2.2 (by omega)⟩
    simp only [decide_eq_false_iff_not]
    rintro ⟨h1, _⟩
    omega

theorem secsFrom_forall {n : Nat} {secs : List (Nat × Nat)} (h : SecsFrom n secs) :
    ∀ p ∈ secs, n ≤ p.1 ∧ p.1 < p.2 := by
  induction secs generalizing n with
  | nil => intro p hp; cases hp
  | cons q rest ih =>
    intro p hp
    simp only [SecsFrom] at h
    rcases List.mem_cons.mp hp with rfl | hp'
    · exact ⟨h.1, h.2.1⟩
    · have := ih h.2.2 p hp'
      exact ⟨by omega, this.2⟩

/-- The scan of `move_to_top` produces a `SecsFrom`-structured section list;
with an open section the first emitted section starts exactly there. -/
theorem scanSections_invariant (startP : String) (endP : Option String) :
    ∀ (ls : List String) (i : Nat),
      SecsFrom i (scanSections startP endP ls i none)
      ∧ (∀ s, s < i → ∃ e rest,
          scanSections startP endP ls i (some s) = (s, e) :: rest
          ∧ i ≤ e ∧ SecsFrom e rest) := by
  intro ls
  induction ls with
  | nil =>
    intro i
    exact ⟨trivial, fun s _ => ⟨i, [], rfl, le_refl i, trivial⟩⟩
  | cons l ls ih =>
    intro i
    constructor
    · by_cases h : strStartsWith l startP
      · simp only [scanSections, h, if_true]
        obtain ⟨e, rest, heq, hle, hSF⟩ := (ih (i + 1)).2 i (Nat.lt_succ_self i)
        rw [heq]
        exact ⟨le_refl i, by omega, hSF⟩
      · simp only [scanSections, h, if_false]
        exact ((ih (i + 1)).1).mono (by omega)
    · intro s hs
      by_cases h : strStartsWith l startP
      · obtain ⟨e2, rest2, heq2, hle2, hSF2⟩ := (ih (i + 1)).2 i (Nat.lt_succ_self i)
        refine ⟨i, scanSections startP endP ls (i + 1) (some i),
          by simp only [scanSections, h, if_true], le_refl i, ?_⟩
        rw [heq2]
        exact ⟨le_refl i, by omega, hSF2⟩
      · by_cases he : isEndLine endP l
        · refine ⟨i, scanSections startP endP ls (i + 1) none,
            by simp [scanSections, h, he], le_refl i, ?_⟩
          exact ((ih (i + 1)).1).mono (by omega)
        · obtain ⟨e2, rest2, heq2, hle2, hSF2⟩ := (ih (i + 1)).2 s (by omega)
          exact ⟨e2, rest2,
            by simp only [scanSections, h, he, if_false]; exact heq2, by omega, hSF2⟩

theorem fst_ge_of_mem_enumFrom {α : Type} {q : Nat × α} :
    ∀ {n : Nat} {l : List α}, q ∈ l.enumFrom n → n ≤ q.1 := by
  intro n l
  induction l generalizing n with
  | nil => intro hq; cases hq
  | cons x xs ih =>
    intro hq
    rw [List.enumFrom_cons] at hq
    rcases List.mem_cons.mp hq with rfl | hq'
    · exact le_refl n
    · exact (Nat.le_succ n).trans (ih hq')

/-- Concatenating the slices of a `SecsFrom`-structured section list equals
filtering the enumerated lines by section membership. -/
theorem slices_flatten_eq_filter :
    ∀ (lines : List String) (i : Nat) (secs : List (Nat × Nat)),
      SecsFrom i secs →
      (secs.map (fun p => (lines.drop (p.1 - i)).take (p.2 - p.1))).flatten
        = ((lines.enumFrom i).filter (fun q => inSections secs q.1)).map Prod.snd := by
  intro lines
  induction lines with
  | nil =>
    intro i secs _
    simp
  | cons x xs ih =>
    intro i secs h
    cases secs with
    | nil => simp [inSections]
    | cons p rest =>
      obtain ⟨s, e⟩ := p
      simp only [SecsFrom] at h
      obtain ⟨his, hse, hrest⟩ := h
      have hSFs : SecsFrom s ((s, e) :: rest) := by
        simp only [SecsFrom]
        exact ⟨le_refl s, hse, hrest⟩
      by_cases hlt : i < s
      · -- the head line is outside every section
        have hout : inSections ((s, e) :: rest) i = false :=
          not_inSections_of_lt (n := s) hSFs hlt
        have hmapeq : ((s, e) :: rest).map
              (fun p => (((x :: xs).drop (p.1 - i)).take (p.2 - p.1)))
            = ((s, e) :: rest).map
              (fun p => ((xs.drop (p.1 - (i + 1))).take (p.2 - p.1))) := by
          apply List.map_congr_left
          intro p hp
          have hb := secsFrom_forall (n := s) hSFs p hp
          have h1 : p.1 - i = (p.1 - (i + 1)) + 1 := by omega
          rw [h1, List.drop_succ_cons]
        rw [List.enumFrom_cons, hmapeq]
        have hSF' : SecsFrom (i + 1) ((s, e) :: rest) := by
          simp only [SecsFrom]
          exact ⟨by omega, hse, hrest⟩
        rw [ih (i + 1) ((s, e) :: rest) hSF']
        simp [hout]
      · have hiseq : i = s := by omega
        subst hiseq
        have hin : inSections ((i, e) :: rest) i = true := by
          simp only [inSections, List.any_cons, Bool.or_eq_true_iff]
          left
          simp only [decide_eq_true_eq]
          omega
        have hslice0 : ((x :: xs).drop (i - i)).take (e - i)
            = x :: xs.take (e - (i + 1)) := by
          have h0 : i - i = 0 := by omega
          have h1 : e - i = (e - (i + 1)) + 1 := by omega
          rw [h0, h1]
          rfl
        have hrestmap : rest.map
              (fun p => (((x :: xs).drop (p.1 - i)).take (p.2 - p.1)))
            = rest.map (fun p => ((xs.drop (p.1 - (i + 1))).take (p.2 - p.1))) := by
          apply List.map_congr_left
          intro p hp
          have hb := secsFrom_forall (n := e) hrest p hp
          have h1 : p.1 - i = (p.1 - (i + 1)) + 1 := by omega
          rw [h1, List.drop_succ_cons]
        rw [List.enumFrom_cons]
        rw [List.filter_cons_of_pos (by simpa using hin)]
        by_cases he1 : e = i + 1
        · -- the section ends right after the head line
          subst he1
          have hrest' : SecsFrom (i + 1) rest := hrest
          have hpredeq : (xs.enumFrom (i + 1)).filter
                (fun q => inSections ((i, i + 1) :: rest) q.1)
              = (xs.enumFrom (i + 1)).filter (fun q => inSections rest q.1) := by
            apply List.filter_congr
            intro q hq
            have hge := fst_ge_of_mem_enumFrom hq
            simp only [inSections, List.any_cons]
            have hdec : decide (i ≤ q.1 ∧ q.1 < i + 1) = false := by
              simp only [decide_eq_false_iff_not]
              omega
            rw [hdec]
            simp
          simp only [List.map_cons, List.flatten_cons, hslice0, hrestmap]
          rw [ih (i + 1) rest hrest', hpredeq]
          simp
        · -- the section continues past the head line
          have hSF' : SecsFrom (i + 1) ((i + 1, e) :: rest) := by
            simp only [SecsFrom]
            exact ⟨le_refl (i + 1), by omega, hrest⟩
          have hih := ih (i + 1) ((i + 1, e) :: rest) hSF'
          have hpredeq : (xs.enumFrom (i + 1)).filter
                (fun q => inSections ((i + 1, e) :: rest) q.1)
              = (xs.enumFrom (i + 1)).filter
                (fun q => inSections ((i, e) :: rest) q.1) := by
            apply List.filter_congr
            intro q hq
            have hge := fst_ge_of_mem_enumFrom hq
            simp only [inSections, List.any_cons]
            have : decide (i + 1 ≤ q.1 ∧ q.1 < e) = decide (i ≤ q.1 ∧ q.1 < e) := by
              apply decide_eq_decide.mpr
              omega
            rw [this]
          rw [hpredeq] at hih
          simp only [List.map_cons, List.flatten_cons, hslice0, hrestmap]
          simp only [List.map_cons, List.flatten_cons] at hih
          have hslice1 : (xs.drop ((i + 1) - (i + 1))).take (e - (i + 1))
              = xs.take (e - (i + 1)) := by
            have h0 : (i + 1) - (i + 1) = 0 := by omega
            rw [h0]
            rfl
          rw [hslice1] at hih
          simp [hih]

/-- Specification-side description of the matched lines: the lines whose
index lies in one of the scanned sections, in original order. -/
def matchedLines (startP : String) (endP : Option String)
    (lines : List String) : List String :=
  (lines.enum.filter
    (fun q => inSections (scanSections startP endP lines 0 none) q.1)).map Prod.snd

/-- Specification-side description of the unmatched lines: the lines outside
every scanned section, in original order. -/
def unmatchedLines (startP : String) (endP : Option String)
    (lines : List String) : List String :=
  (lines.enum.filter
    (fun q => !(inSections (scanSections startP endP lines 0 none) q.1))).map Prod.snd

/-- Claim C3: for every document and start/end marker pair, `move_to_top`
emits exactly the matched sections, concatenated in file order, followed by
the non-matched lines in their original relative order, and the result is a
permutation of the input lines (no line duplicated or dropped). -/
theorem move_to_top_partition_perm (startP : String) (endP : Option String)
    (lines : List String) :
    move_to_top_lines startP endP lines
      = matchedLines startP endP lines ++ unmatchedLines startP endP lines
    ∧ (move_to_top_lines startP endP lines).Perm lines := by
  have hSF : SecsFrom 0 (scanSections startP endP lines 0 none) :=
    (scanSections_invariant startP endP lines 0).1
  have hm := slices_flatten_eq_filter lines 0 (scanSections startP endP lines 0 none) hSF
  simp only [Nat.sub_zero] at hm
  have heq : move_to_top_lines startP endP lines
      = matchedLines startP endP lines ++ unmatchedLines startP endP lines := by
    simp only [move_to_top_lines, matchedLines, unmatchedLines, pySlice,
      List.enum_eq_enumFrom]
    rw [hm]
  refine ⟨heq, ?_⟩
  rw [heq]
  have hperm : (lines.enum.filter
        (fun q => inSections (scanSections startP endP lines 0 none) q.1))
      ++ (lines.enum.filter
        (fun q => !(inSections (scanSections startP endP lines 0 none) q.1)))
      |>.Perm lines.enum :=
    List.filter_append_perm _ lines.enum
  have := hperm.map Prod.snd
  rw [List.map_append] at this
  simpa only [matchedLines, unmatchedLines, List.enum_eq_enumFrom,
    List.enumFrom_map_snd] using this

/-! ### Split / join round trip

`'\n'.join(content.split('\n')) == content`, proved for the embedded
primitives so that line-level results transfer to whole documents. -/

/-- Newline-join at the character level. -/
def joinNlChars : List (List Char) → List Char
  | [] => []
  | [l] => l
  | l :: ls => l ++ '\n' :: joinNlChars ls

theorem pySplitNlChars_ne_nil : ∀ cs : List Char, pySplitNlChars cs ≠ [] := by
  intro cs
  cases cs with
  | nil => simp [pySplitNlChars]
  | cons c cs =>
    by_cases h : c = '\n'
    · simp [pySplitNlChars, h]
    · simp only [pySplitNlChars, h, if_false]
      cases hcs : pySplitNlChars cs with
      | nil => simp
      | cons l ls => simp

theorem joinNlChars_pySplitNlChars : ∀ cs : List Char,
    joinNlChars (pySplitNlChars cs) = cs := by
  intro cs
  induction cs with
  | nil => rfl
  | cons c cs ih =>
    by_cases h : c = '\n'
    · subst h
      simp only [pySplitNlChars, if_true]
      cases hcs : pySplitNlChars cs with
      | nil => exact absurd hcs (pySplitNlChars_ne_nil cs)
      | cons l ls =>
        rw [hcs] at ih
        simp only [joinNlChars, List.nil_append]
        rw [ih]
    · simp only [pySplitNlChars, h, if_false]
      cases hcs : pySplitNlChars cs with
      | nil => exact absurd hcs (pySplitNlChars_ne_nil cs)
      | cons l ls =>
        rw [hcs] at ih
        cases ls with
        | nil =>
          simp only [joinNlChars] at ih ⊢
          rw [ih]
        | cons a ls' =>
          simp only [joinNlChars] at ih ⊢
          rw [← ih]
          simp

theorem pyJoinNl_map_mk : ∀ lls : List (List Char),
    pyJoinNl (lls.map String.mk) = String.mk (joinNlChars lls) := by
  intro lls
  induction lls with
  | nil => rfl
  | cons l ls ih =>
    cases ls with
    | nil => rfl
    | cons a ls' =>
      simp only [List.map_cons] at ih ⊢
      have hstep : pyJoinNl (String.mk l :: String.mk a :: ls'.map String.mk)
          = String.mk l ++ "\n" ++ pyJoinNl (String.mk a :: ls'.map String.mk) := rfl
      rw [hstep, ih]
      have happ : String.mk l ++ "\n" ++ String.mk (joinNlChars (a :: ls'))
          = String.mk ((l ++ ['\n']) ++ joinNlChars (a :: ls')) := rfl
      rw [happ]
      have hjoin : joinNlChars (l :: a :: ls') = l ++ '\n' :: joinNlChars (a :: ls') := rfl
      rw [hjoin]
      simp

/-- Splitting a document into lines and re-joining is the identity. -/
theorem pyJoinNl_pySplitNl (s : String) : pyJoinNl (pySplitNl s) = s := by
  unfold pySplitNl
  rw [pyJoinNl_map_mk, joinNlChars_pySplitNlChars]

/-! ### Claims C7 and C4: absent markers, and `move_to_bottom` with no end
marker -/

theorem scanSections_eq_nil_of_no_start (startP : String) (endP : Option String) :
    ∀ (ls : List String), (∀ l ∈ ls, ¬ strStartsWith l startP) →
      ∀ i, scanSections startP endP ls i none = [] := by
  intro ls
  induction ls with
  | nil => intro _ _; rfl
  | cons l ls ih =>
    intro h i
    have hl : ¬ strStartsWith l startP = true := h l (List.mem_cons_self l ls)
    simp only [scanSections, hl, if_false]
    exact ih (fun x hx => h x (List.mem_cons_of_mem l hx)) (i + 1)

theorem scanSectionsB_eq_ok_nil_of_no_start (startP e : String) :
    ∀ (ls : List String), (∀ l ∈ ls, ¬ strStartsWith l startP) →
      ∀ i, scanSectionsB startP (some e) ls i none = .ok [] := by
  intro ls
  induction ls with
  | nil => intro _ _; rfl
  | cons l ls ih =>
    intro h i
    have hl : ¬ strStartsWith l startP = true := h l (List.mem_cons_self l ls)
    simp only [scanSectionsB, hl, if_false, Option.isNone_some]
    exact ih (fun x hx => h x (List.mem_cons_of_mem l hx)) (i + 1)

theorem scanSectionsB_end_none_error (startP : String) :
    ∀ (ls : List String), (∃ l ∈ ls, ¬ strStartsWith l startP) →
      ∀ i si, scanSectionsB startP none ls i si
        = .error "TypeError: startswith first arg must be str, not None" := by
  intro ls
  induction ls with
  | nil => rintro ⟨l, hl, _⟩; cases hl
  | cons l ls ih =>
    rintro ⟨l', hl', hns⟩ i si
    by_cases hl : strStartsWith l startP
    · have hl'mem : l' ∈ ls := by
        rcases List.mem_cons.mp hl' with rfl | hmem
        · exact absurd hl hns
        · exact hmem
      have herr := ih ⟨l', hl'mem, hns⟩
      cases si with
      | some s => simp only [scanSections, scanSectionsB, hl, if_true,
          herr (i + 1) (some i), Except.map]
      | none => simp only [scanSectionsB, hl, if_true, herr (i + 1) (some i)]
    · cases si <;> simp [scanSectionsB, hl]

/-- Claim C7, counterexample: on `"alpha\nbeta"` the start marker `"X"`
occurs at the beginning of no line, yet `move_to_bottom` with the end marker
unset (`None`) does not return the document unchanged — it raises a
`TypeError` (the unguarded `elif` evaluates `line.startswith(None)` on the
first line), so marker absence is not "never an error" as the claim
states. -/
theorem marker_absent_bottom_none_errors :
    (∀ l ∈ pySplitNl "alpha\nbeta", ¬ strStartsWith l "X")
    ∧ move_to_bottom "alpha\nbeta" "X" none
        = .error "TypeError: startswith first arg must be str, not None" :=
  ⟨by decide, rfl⟩

/-- Claim C7, amended: when no line of the document starts with the start
marker, `move_to_top` (with any end marker, including `None`) and
`move_to_bottom` (with a string end marker) return the document unchanged;
`move_to_bottom` with the end marker unset (`None`) instead raises a
`TypeError` — the unguarded `elif` evaluates `line.startswith(None)` on the
document's first line (a document always has at least one line, and with the
marker absent that line does not start with it). -/
theorem marker_absent_noop (D startP : String) (endP : Option String) (e : String)
    (h : ∀ l ∈ pySplitNl D, ¬ strStartsWith l startP) :
    move_to_top D startP endP = D
    ∧ move_to_bottom D startP (some e) = .ok D
    ∧ move_to_bottom D startP none
        = .error "TypeError: startswith first arg must be str, not None" := by
  have htop : move_to_top_lines startP endP (pySplitNl D) = pySplitNl D := by
    simp only [move_to_top_lines, scanSections_eq_nil_of_no_start startP endP _ h 0]
    simp [inSections, List.enum_eq_enumFrom, List.enumFrom_map_snd]
  have hbot : move_to_bottom_lines startP (some e) (pySplitNl D) = .ok (pySplitNl D) := by
    simp only [move_to_bottom_lines, scanSectionsB_eq_ok_nil_of_no_start startP e _ h 0]
    simp [Except.map, inSections, List.enum_eq_enumFrom, List.enumFrom_map_snd]
  have hex : ∃ l ∈ pySplitNl D, ¬ strStartsWith l startP = true := by
    cases hl : pySplitNl D with
    | nil =>
      exact absurd (by simpa [pySplitNl] using hl) (pySplitNlChars_ne_nil D.data)
    | cons l0 rest =>
      have hm : l0 ∈ pySplitNl D := by
        rw [hl]
        exact List.mem_cons_self l0 rest
      exact ⟨l0, List.mem_cons_self l0 rest, h l0 hm⟩
  refine ⟨?_, ?_, ?_⟩
  · simp only [move_to_top, htop, pyJoinNl_pySplitNl]
  · simp only [move_to_bottom, hbot, Except.map, pyJoinNl_pySplitNl]
  · simp only [move_to_bottom, move_to_bottom_lines,
      scanSectionsB_end_none_error startP _ hex 0 none, Except.map]

/-- Witness for `marker_absent_noop` at a concrete document. -/
theorem marker_absent_noop_witness :
    move_to_top "alpha\nbeta" "X" none = "alpha\nbeta"
    ∧ move_to_bottom "alpha\nbeta" "X" (some "E") = .ok "alpha\nbeta"
    ∧ move_to_bottom "alpha\nbeta" "X" none
        = .error "TypeError: startswith first arg must be str, not None" :=
  marker_absent_noop "alpha\nbeta" "X" none "E" (by decide)

/-- Claim C4, counterexample: the claim asserts that `move_to_bottom` with the
end marker unset (`None`) behaves like `move_to_top` and returns normally; on
the two-line document `"x\ny"` with start marker `"x"`, `move_to_top`
returns normally but `move_to_bottom` raises a `TypeError` (the `elif`
evaluates `line.startswith(None)` because the guard lacks the
`end_pattern is not None` test that `move_to_top` has). -/
theorem move_to_bottom_end_none_not_normal :
    move_to_bottom "x\ny" "x" none
      = .error "TypeError: startswith first arg must be str, not None"
    ∧ move_to_top "x\ny" "x" none = "x\ny" := by
  constructor <;> rfl

/-- Claim C4, amended: `move_to_bottom` with end marker `None` raises a
`TypeError` whenever at least one line of the document does not start with
the start marker (the only lines that avoid the faulty `elif` are lines that
start with the start marker). -/
theorem move_to_bottom_end_none_type_error (D startP : String)
    (h : ∃ l ∈ pySplitNl D, ¬ strStartsWith l startP) :
    move_to_bottom D startP none
      = .error "TypeError: startswith first arg must be str, not None" := by
  simp only [move_to_bottom, move_to_bottom_lines,
    scanSectionsB_end_none_error startP _ h 0 none, Except.map]

/-- Witness for `move_to_bottom_end_none_type_error` at a concrete input. -/
theorem move_to_bottom_end_none_type_error_witness :
    move_to_bottom "head\nA sec\ntail" "A" none
      = .error "TypeError: startswith first arg must be str, not None" :=
  move_to_bottom_end_none_type_error "head\nA sec\ntail" "A" (by decide)

/-! ### `move_responses_to_top` (process_markdown.py lines 70–97)

Two `re.findall` calls feed the routine:
* `r'<a name="([^"]*Response)(?=")"></a>'` — anchor names ending in
  `Response`;
* `r'<a name="((?!Response).)*">'` — here `findall` returns, per match, the
  LAST repetition of the capture group: a single character (the one consumed
  just before the closing `">`), or `""` when the group matched zero times.
  The dot does not match newlines; the greedy repetition backtracks to the
  last viable `">` within the line-bounded run.

Both results pass through Python `set()`; CPython set iteration order is
unspecified, so the embedding takes the iteration orders as parameters and
the theorems quantify over (or concretely pin) them. -/

/-- Scanner for `re.findall(r'<a name="([^"]*Response)(?=")"></a>', s)`:
at each position where the literal `<a name="` matches, the greedy `[^"]*`
runs to the character before the next `"`; the match succeeds iff that run
ends with `Response` and is followed by `"></a>`.  Fuel-based (fuel bounds
the number of scan steps; `length + 1` always suffices). -/
def respScanChars : Nat → List Char → List String
  | 0, _ => []
  | _, [] => []
  | fuel + 1, c :: cs =>
    if ("<a name=\"".data).isPrefixOf (c :: cs) then
      let rest := (c :: cs).drop 9
      let run := rest.takeWhile (fun x => !(x = '"'))
      if ("Response".data).isSuffixOf run
          && ("\"></a>".data).isPrefixOf (rest.drop run.length) then
        String.mk run :: respScanChars fuel (rest.drop (run.length + 6))
      else respScanChars fuel cs
    else respScanChars fuel cs

/-- All anchor names ending in `Response` (first regex of
`move_responses_to_top`), in match order. -/
def findResponseAnchors (content : String) : List String :=
  respScanChars (content.data.length + 1) content.data

/-- Maximal number of characters consumable by `((?!Response).)*`: each
consumed position is not a newline and does not start the literal
`Response`. -/
def nrRunLen : List Char → Nat
  | [] => 0
  | c :: cs =>
    if c = '\n' then 0
    else if ("Response".data).isPrefixOf (c :: cs) then 0
    else nrRunLen cs + 1

/-- Greedy backtracking for the trailing `">`: the largest `j ≤ jmax` such
that `"\">"` is a prefix of `rest.drop j`. -/
def findQuoteGT (rest : List Char) : Nat → Option Nat
  | 0 => if ("\">".data).isPrefixOf rest then some 0 else none
  | j + 1 =>
    if ("\">".data).isPrefixOf (rest.drop (j + 1)) then some (j + 1)
    else findQuoteGT rest j

/-- Scanner for `re.findall(r'<a name="((?!Response).)*">', s)`: per match
the returned capture is the last repeated group (one character, or `""` for
zero repetitions). -/
def nrScanChars : Nat → List Char → List String
  | 0, _ => []
  | _, [] => []
  | fuel + 1, c :: cs =>
    if ("<a name=\"".data).isPrefixOf (c :: cs) then
      let rest := (c :: cs).drop 9
      match findQuoteGT rest (nrRunLen rest) with
      | some j =>
        (if j = 0 then "" else String.mk ((rest.drop (j - 1)).take 1))
          :: nrScanChars fuel (rest.drop (j + 2))
      | none => nrScanChars fuel cs
    else nrScanChars fuel cs

/-- The captures of the second regex of `move_responses_to_top` (single
characters or `""`), in match order. -/
def findNonResponsePatterns (content : String) : List String :=
  nrScanChars (content.data.length + 1) content.data

/-- `f'<a name="{pattern}"></a>'`. -/
def mkAnchor (p : String) : String := "<a name=\"" ++ p ++ "\"></a>"

/-- The inner loop of `move_responses_to_top`: the first non-response
pattern (in iteration order) whose anchor occurs at an index strictly
greater than the response anchor's index becomes the end pattern; both
indices are Python `str.find` results on the ORIGINAL content (`-1` when
absent). -/
def find_end_pattern (content startP : String) : List String → Option String
  | [] => none
  | nr :: rest =>
    if pyFind content (mkAnchor nr) > pyFind content startP then some (mkAnchor nr)
    else find_end_pattern content startP rest

/-- Model of `move_responses_to_top(file_content)`, parametrized by the
iteration orders of the two Python sets. -/
def move_responses_to_top (content : String)
    (respOrder nonRespOrder : List String) : String :=
  respOrder.foldl (fun acc p =>
    move_to_top acc (mkAnchor p) (find_end_pattern content (mkAnchor p) nonRespOrder))
    content

theorem find_end_pattern_eq_none (content sp : String) :
    ∀ l : List String, (∀ c ∈ l, ¬ (pyFind content (mkAnchor c) > pyFind content sp)) →
      find_end_pattern content sp l = none := by
  intro l
  induction l with
  | nil => intro _; rfl
  | cons nr rest ih =>
    intro h
    have h1 : ¬ (pyFind content (mkAnchor nr) > pyFind content sp) :=
      h nr (List.mem_cons_self nr rest)
    simp only [find_end_pattern, if_neg h1]
    exact ih (fun c hc => h c (List.mem_cons_of_mem nr hc))

/-- Claim C2, amended: whenever no captured non-response pattern `c` has
`<a name="{c}"></a>` occurring after the response anchor (in particular
whenever no such anchor string occurs at all, the generic situation since
the captures are single characters), every response section is moved with
end pattern `None`, i.e. it runs to the END of the document — not to the
nearest following non-`Response` anchor. -/
theorem move_responses_end_pattern_none (content : String)
    (respOrder nonRespOrder : List String)
    (hresp : respOrder.Perm (findResponseAnchors content).dedup)
    (hnr : nonRespOrder.Perm (findNonResponsePatterns content).dedup)
    (h : ∀ p ∈ respOrder, ∀ c ∈ nonRespOrder,
      ¬ (pyFind content (mkAnchor c) > pyFind content (mkAnchor p))) :
    move_responses_to_top content respOrder nonRespOrder
      = respOrder.foldl (fun acc p => move_to_top acc (mkAnchor p) none) content := by
  unfold move_responses_to_top
  clear hresp hnr
  suffices haux : ∀ (ps : List String) (acc : String),
      (∀ p ∈ ps, ∀ c ∈ nonRespOrder,
        ¬ (pyFind content (mkAnchor c) > pyFind content (mkAnchor p))) →
      List.foldl (fun acc p =>
          move_to_top acc (mkAnchor p)
            (find_end_pattern content (mkAnchor p) nonRespOrder)) acc ps
        = List.foldl (fun acc p => move_to_top acc (mkAnchor p) none) acc ps by
    exact haux respOrder content h
  intro ps
  induction ps with
  | nil => intro acc _; rfl
  | cons p ps ih =>
    intro acc hh
    simp only [List.foldl_cons]
    rw [find_end_pattern_eq_none content (mkAnchor p) nonRespOrder
      (hh p (List.mem_cons_self p ps))]
    exact ih _ (fun q hq c hc => hh q (List.mem_cons_of_mem p hq) c hc)

/-- Concrete document for claim C2: one response anchor with a following
non-response anchor. -/
def exDocC2 : String :=
  "head\n<a name=\"FooResponse\"></a>\nresp line\n<a name=\"Other\"></a>\ntail"

/-- Claim C2, counterexample: on `exDocC2` the discovered response set is
exactly `{"FooResponse"}` and the non-response findall captures exactly
`{"r"}` (a single character — the regex `<a name="((?!Response).)*">`
captures only the last repetition of its group), so both set iteration
orders are pinned.  The claim says the section is moved with the nearest
following non-`Response` anchor `<a name="Other"></a>` as end marker; the
code instead finds no end pattern and moves the section with end `None`
(to the end of the document), producing a different result. -/
theorem move_responses_nearest_anchor_false :
    findResponseAnchors exDocC2 = ["FooResponse"]
    ∧ findNonResponsePatterns exDocC2 = ["r"]
    ∧ move_responses_to_top exDocC2 ["FooResponse"] ["r"]
        ≠ move_to_top exDocC2 "<a name=\"FooResponse\"></a>"
            (some "<a name=\"Other\"></a>")
    ∧ move_responses_to_top exDocC2 ["FooResponse"] ["r"]
        = move_to_top exDocC2 "<a name=\"FooResponse\"></a>" none := by
  refine ⟨?_, ?_, ?_, ?_⟩ <;> decide

/-- Witness for `move_responses_end_pattern_none` at `exDocC2`. -/
theorem move_responses_end_pattern_none_witness :
    move_responses_to_top exDocC2 ["FooResponse"] ["r"]
      = ["FooResponse"].foldl
          (fun acc p => move_to_top acc (mkAnchor p) none) exDocC2 :=
  move_responses_end_pattern_none exDocC2 ["FooResponse"] ["r"]
    (by decide) (by decide) (by decide)

/-! ### `correct_escaping_in_links` (process_markdown.py lines 367–384)

Regex `(\[/v1[^\]]+\])`: a literal `[/v1`, one or more non-`]` characters,
then `]`.  Each match is replaced by the callback
`remove_escapes_and_check_braces`: all backslashes are removed; if the
cleaned text still contains a brace, the text between (and excluding) the
enclosing brackets is wrapped in backtick characters.  The scanner below
walks the characters with an explicit skip counter so that every definition
stays structurally recursive. -/

/-- The left-brace character. -/
def lbrace : Char := Char.ofNat 123

/-- The right-brace character. -/
def rbrace : Char := Char.ofNat 125

/-- The backtick character. -/
def btick : Char := Char.ofNat 96

/-- Translation of the Python callback `remove_escapes_and_check_braces`
(`cleaned[0] + '`' + cleaned[1:-1] + '`' + cleaned[-1]` in the brace case;
`cleaned` is never empty on a regex match since `[` survives the filter). -/
def remove_escapes_and_check_braces (m : List Char) : List Char :=
  let cleaned := m.filter (fun c => !(c = '\\'))
  if cleaned.contains lbrace || cleaned.contains rbrace then
    cleaned.take 1 ++ btick ::
      ((cleaned.drop 1).dropLast ++ btick :: cleaned.drop (cleaned.length - 1))
  else cleaned

/-- Greedy body of the regex after the opening `[`: requires `/v1`, then one
or more non-`]` characters, then a closing `]`; returns the inner run. -/
def v1MatchInner (cs : List Char) : Option (List Char) :=
  if (['/', 'v', '1'] : List Char).isPrefixOf cs then
    let inner := (cs.drop 3).takeWhile (fun x => !(x = ']'))
    if inner.isEmpty then none
    else if ((cs.drop 3).drop inner.length).isEmpty then none
    else some inner
  else none

/-- Match attempt at the current character: a match requires `[` then the
`v1MatchInner` body. -/
def celHead (c : Char) (cs : List Char) : Option (List Char) :=
  if c = '[' then v1MatchInner cs else none

/-- Character scanner of `re.sub(r'(\[/v1[^\]]+\])', callback, content)`:
left-to-right, non-overlapping; a positive `skip` counter consumes the
remainder of an already-rewritten match. -/
def celAux : List Char → Nat → List Char
  | [], _ => []
  | _ :: cs, skip + 1 => celAux cs skip
  | c :: cs, 0 =>
    match celHead c cs with
    | some inner =>
      remove_escapes_and_check_braces ('[' :: '/' :: 'v' :: '1' :: (inner ++ [']']))
        ++ celAux cs (inner.length + 4)
    | none => c :: celAux cs 0

/-- One-step unfolding of the scanner at skip state `0`. -/
theorem celAux_cons_zero (c : Char) (cs : List Char) :
    celAux (c :: cs) 0
      = match celHead c cs with
        | some inner =>
          remove_escapes_and_check_braces ('[' :: '/' :: 'v' :: '1' :: (inner ++ [']']))
            ++ celAux cs (inner.length + 4)
        | none => c :: celAux cs 0 := rfl

/-- Model of `correct_escaping_in_links(content)`. -/
def correct_escaping_in_links (s : String) : String :=
  String.mk (celAux s.data 0)

/-- `isPrefixOf` only inspects the first `pat.length` characters. -/
theorem isPrefixOf_append_agnostic {pat : List Char} :
    ∀ (xs ys zs : List Char), pat.length ≤ xs.length →
      pat.isPrefixOf (xs ++ ys) = pat.isPrefixOf (xs ++ zs) := by
  induction pat with
  | nil => intro xs ys zs _; simp
  | cons p ps ih =>
    intro xs ys zs h
    cases xs with
    | nil => simp at h
    | cons x xs' =>
      simp only [List.cons_append, List.isPrefixOf_cons₂]
      rw [ih xs' ys zs (by simpa using h)]

theorem celAux_skip : ∀ (xs rest : List Char),
    celAux (xs ++ rest) xs.length = celAux rest 0 := by
  intro xs
  induction xs with
  | nil => intro rest; rfl
  | cons x xs ih =>
    intro rest
    simpa only [List.cons_append, List.length_cons, celAux] using ih rest

theorem v1MatchInner_eval (mid post : List Char)
    (hmid : ']' ∉ mid) (hne : mid ≠ []) :
    v1MatchInner ('/' :: 'v' :: '1' :: (mid ++ ']' :: post)) = some mid := by
  unfold v1MatchInner
  have hpref : (['/', 'v', '1'] : List Char).isPrefixOf
      ('/' :: 'v' :: '1' :: (mid ++ ']' :: post)) = true := by
    simp [List.isPrefixOf]
  rw [if_pos hpref]
  have hdrop : ('/' :: 'v' :: '1' :: (mid ++ ']' :: post)).drop 3
      = mid ++ ']' :: post := rfl
  have htw : (mid ++ ']' :: post).takeWhile (fun x => !(x = ']')) = mid := by
    have h1 : ∀ a ∈ mid, (fun x => !(x = ']' : Bool)) a = true := by
      intro a ha
      simp only [Bool.not_eq_true']
      simp only [decide_eq_false_iff_not]
      intro hcontr
      exact hmid (hcontr ▸ ha)
    rw [List.takeWhile_append_of_pos h1]
    simp [List.takeWhile]
  rw [hdrop, htw]
  have hlen : (mid ++ ']' :: post).drop mid.length = ']' :: post :=
    List.drop_left' rfl
  simp [hlen, List.isEmpty_iff, hne]

theorem celAux_match (mid post : List Char) (hmid : ']' ∉ mid) (hne : mid ≠ []) :
    celAux ('[' :: '/' :: 'v' :: '1' :: (mid ++ ']' :: post)) 0
      = remove_escapes_and_check_braces ('[' :: '/' :: 'v' :: '1' :: (mid ++ [']']))
          ++ celAux post 0 := by
  have hhead : celHead '[' ('/' :: 'v' :: '1' :: (mid ++ ']' :: post)) = some mid := by
    unfold celHead
    rw [if_pos rfl, v1MatchInner_eval mid post hmid hne]
  have hstep : celAux ('[' :: '/' :: 'v' :: '1' :: (mid ++ ']' :: post)) 0
      = remove_escapes_and_check_braces ('[' :: '/' :: 'v' :: '1' :: (mid ++ [']']))
          ++ celAux ('/' :: 'v' :: '1' :: (mid ++ ']' :: post)) (mid.length + 4) := by
    rw [celAux_cons_zero, hhead]
  rw [hstep]
  have hsplit : ('/' :: 'v' :: '1' :: (mid ++ ']' :: post))
      = ('/' :: 'v' :: '1' :: (mid ++ [']'])) ++ post := by
    simp
  have hlen : ('/' :: 'v' :: '1' :: (mid ++ [']'])).length = mid.length + 4 := by
    simp
  rw [hsplit, ← hlen, celAux_skip]

/-- Claim C6: every occurrence of `[/v1` followed by one or more non-`]`
characters and a closing `]` is rewritten by stripping all backslashes and,
if the de-escaped text still contains a brace, wrapping the text between
(and excluding) the enclosing brackets in backticks; when no brace remains
the occurrence is changed only by the de-escaping; in particular
`[/v1/plain]` is returned unchanged.  Content before the occurrence (free of
match starts) is preserved and scanning continues after it. -/
theorem correct_escaping_in_links_spec (pre mid post : List Char)
    (hpre : hasSubstrChars ['[', '/', 'v', '1'] (pre ++ ['[', '/', 'v']) = false)
    (hmid : ']' ∉ mid) (hne : mid ≠ []) :
    celAux (pre ++ '[' :: '/' :: 'v' :: '1' :: (mid ++ ']' :: post)) 0
      = pre ++ remove_escapes_and_check_braces ('[' :: '/' :: 'v' :: '1' :: (mid ++ [']']))
          ++ celAux post 0
    ∧ (∀ m : List Char, lbrace ∉ m.filter (fun c => !(c = '\\')) →
        rbrace ∉ m.filter (fun c => !(c = '\\')) →
        remove_escapes_and_check_braces m = m.filter (fun c => !(c = '\\')))
    ∧ correct_escaping_in_links "[/v1/plain]" = "[/v1/plain]" := by
  refine ⟨?_, ?_, by decide⟩
  · induction pre with
    | nil => simpa using celAux_match mid post hmid hne
    | cons p pre ih =>
      have hsplit2 : hasSubstrChars ['[', '/', 'v', '1']
            (p :: (pre ++ ['[', '/', 'v'])) = false := by
        simpa using hpre
      have hnotpref : (['[', '/', 'v', '1'] : List Char).isPrefixOf
          (p :: (pre ++ ['[', '/', 'v'])) = false := by
        simp only [hasSubstrChars, Bool.or_eq_false_iff] at hsplit2
        exact hsplit2.1
      have hpre' : hasSubstrChars ['[', '/', 'v', '1'] (pre ++ ['[', '/', 'v'])
          = false := by
        simp only [hasSubstrChars, Bool.or_eq_false_iff] at hsplit2
        exact hsplit2.2
      by_cases hp : p = '['
      · subst hp
        have h2 : (['/', 'v', '1'] : List Char).isPrefixOf
            (pre ++ ['[', '/', 'v']) = false := by
          simp only [List.isPrefixOf_cons₂] at hnotpref
          simpa using hnotpref
        have h3 : (['/', 'v', '1'] : List Char).isPrefixOf
            (pre ++ '[' :: '/' :: 'v' :: '1' :: (mid ++ ']' :: post)) = false := by
          have hsh : pre ++ '[' :: '/' :: 'v' :: '1' :: (mid ++ ']' :: post)
              = (pre ++ ['[', '/', 'v']) ++ ('1' :: (mid ++ ']' :: post)) := by
            simp
          rw [hsh, isPrefixOf_append_agnostic (pre ++ ['[', '/', 'v'])
            ('1' :: (mid ++ ']' :: post)) [] (by simp)]
          simpa using h2
        have h4 : v1MatchInner
            (pre ++ '[' :: '/' :: 'v' :: '1' :: (mid ++ ']' :: post)) = none := by
          unfold v1MatchInner
          rw [if_neg (by simp [h3])]
        have hh : celHead '[' (pre ++ '[' :: '/' :: 'v' :: '1'
            :: (mid ++ ']' :: post)) = none := by
          unfold celHead
          rw [if_pos rfl, h4]
        have hgoal : celAux (('[' :: pre) ++ '[' :: '/' :: 'v' :: '1'
              :: (mid ++ ']' :: post)) 0
            = '[' :: celAux (pre ++ '[' :: '/' :: 'v' :: '1'
              :: (mid ++ ']' :: post)) 0 := by
          rw [List.cons_append, celAux_cons_zero, hh]
        rw [hgoal, ih hpre']
        simp
      · have hh : celHead p (pre ++ '[' :: '/' :: 'v' :: '1'
            :: (mid ++ ']' :: post)) = none := by
          unfold celHead
          rw [if_neg hp]
        have hgoal : celAux ((p :: pre) ++ '[' :: '/' :: 'v' :: '1'
              :: (mid ++ ']' :: post)) 0
            = p :: celAux (pre ++ '[' :: '/' :: 'v' :: '1'
              :: (mid ++ ']' :: post)) 0 := by
          rw [List.cons_append, celAux_cons_zero, hh]
        rw [hgoal, ih hpre']
        simp
  · intro m h1 h2
    unfold remove_escapes_and_check_braces
    rw [if_neg]
    simp only [List.contains, List.elem_eq_mem, Bool.or_eq_true,
      decide_eq_true_eq, not_or]
    exact ⟨h1, h2⟩

/-- Witness for `correct_escaping_in_links_spec` at the spec's brace
example embedded in surrounding text. -/
theorem correct_escaping_in_links_spec_witness :
    celAux ("A ".data ++ '[' :: '/' :: 'v' :: '1'
        :: ("\\/foo/\x7bbar\x7d".data ++ ']' :: " B".data)) 0
      = "A ".data ++ remove_escapes_and_check_braces
          ('[' :: '/' :: 'v' :: '1' :: ("\\/foo/\x7bbar\x7d".data ++ [']']))
        ++ celAux " B".data 0 :=
  (correct_escaping_in_links_spec "A ".data "\\/foo/\x7bbar\x7d".data " B".data
    (by decide) (by decide) (by decide)).1

/-! ### `remove_output_blocks` (process_markdown.py lines 455–460)

Regex `re.sub(r'// Output:.*?```', '```', content, flags=DOTALL)`: from each
literal `// Output:` marker, the lazy `.*?` runs to the NEXT three-backtick
fence; the whole span (marker included, fence included) is replaced by a
single fence.  A marker with no later fence never matches and is left
untouched. -/

/-- The literal marker `// Output:`. -/
def outMarker : List Char := "// Output:".data

/-- The closing code fence (three backticks). -/
def fence3 : List Char := "```".data

/-- Distance from the current position through the end of the next fence:
`some d` means the fence occupies the three characters before position `d`
and `l.drop d` is the text after it. -/
def fenceDist : List Char → Option Nat
  | [] => none
  | c :: cs =>
    if fence3.isPrefixOf (c :: cs) then some 3
    else (fenceDist cs).map (· + 1)

/-- Character scanner of the substitution: left-to-right, non-overlapping;
a positive `skip` counter consumes the remainder of a replaced span; a
marker without a following fence terminates the scan with the remainder
unchanged (no regex match is possible there or later). -/
def robAux : List Char → Nat → List Char
  | [], _ => []
  | _ :: cs, skip + 1 => robAux cs skip
  | c :: cs, 0 =>
    if outMarker.isPrefixOf (c :: cs) then
      match fenceDist ((c :: cs).drop 10) with
      | some d => fence3 ++ robAux cs (9 + d)
      | none => c :: cs
    else c :: robAux cs 0

/-- One-step unfolding of the scanner at skip state `0`. -/
theorem robAux_cons_zero (c : Char) (cs : List Char) :
    robAux (c :: cs) 0
      = if outMarker.isPrefixOf (c :: cs) then
          match fenceDist ((c :: cs).drop 10) with
          | some d => fence3 ++ robAux cs (9 + d)
          | none => c :: cs
        else c :: robAux cs 0 := rfl

/-- Model of `remove_output_blocks(content)`. -/
def remove_output_blocks (s : String) : String :=
  String.mk (robAux s.data 0)

theorem robAux_skip : ∀ (xs rest : List Char),
    robAux (xs ++ rest) xs.length = robAux rest 0 := by
  intro xs
  induction xs with
  | nil => intro rest; rfl
  | cons x xs ih =>
    intro rest
    simpa only [List.cons_append, List.length_cons, robAux] using ih rest

theorem fenceDist_eval (mid post : List Char)
    (hmid : hasSubstrChars fence3 (mid ++ "``".data) = false) :
    fenceDist (mid ++ fence3 ++ post) = some (mid.length + 3) := by
  induction mid with
  | nil =>
    rw [show (([] : List Char) ++ fence3 ++ post)
      = '`' :: ('`' :: '`' :: post) from by simp [fence3]]
    rw [show fenceDist ('`' :: ('`' :: '`' :: post))
      = if fence3.isPrefixOf ('`' :: '`' :: '`' :: post) then some 3
        else (fenceDist ('`' :: '`' :: post)).map (· + 1) from rfl]
    rw [if_pos (by rw [List.isPrefixOf_iff_prefix]; exact List.prefix_append _ _)]
    simp
  | cons m ms ih =>
    have hsplit : hasSubstrChars fence3 (ms ++ "``".data) = false := by
      simp only [hasSubstrChars, List.cons_append, Bool.or_eq_false_iff] at hmid
      exact hmid.2
    have hnotpref : fence3.isPrefixOf (m :: (ms ++ "``".data)) = false := by
      simp only [hasSubstrChars, List.cons_append, Bool.or_eq_false_iff] at hmid
      exact hmid.1
    have hnp2 : fence3.isPrefixOf (m :: (ms ++ fence3 ++ post)) = false := by
      have hsh : m :: (ms ++ fence3 ++ post)
          = (m :: (ms ++ "``".data)) ++ ('`' :: post) := by
        simp [fence3]
      rw [hsh, isPrefixOf_append_agnostic (m :: (ms ++ "``".data)) ('`' :: post) []
        (by simp [fence3])]
      simpa using hnotpref
    rw [show fenceDist ((m :: ms) ++ fence3 ++ post)
      = if fence3.isPrefixOf (m :: (ms ++ fence3 ++ post)) then some 3
        else (fenceDist (ms ++ fence3 ++ post)).map (· + 1) from rfl]
    rw [if_neg (by rw [hnp2]; exact Bool.false_ne_true)]
    rw [ih hsplit]
    simp

theorem robAux_match (mid post : List Char)
    (hmid : hasSubstrChars fence3 (mid ++ "``".data) = false) :
    robAux (outMarker ++ mid ++ fence3 ++ post) 0 = fence3 ++ robAux post 0 := by
  have hsh : outMarker ++ mid ++ fence3 ++ post
      = '/' :: ("/ Output:".data ++ mid ++ fence3 ++ post) := by
    simp [outMarker]
  rw [hsh, robAux_cons_zero]
  have hpref : outMarker.isPrefixOf
      ('/' :: ("/ Output:".data ++ mid ++ fence3 ++ post)) = true := by
    rw [List.isPrefixOf_iff_prefix]
    have : '/' :: ("/ Output:".data ++ mid ++ fence3 ++ post)
        = outMarker ++ (mid ++ fence3 ++ post) := by
      simp [outMarker]
    rw [this]
    exact List.prefix_append _ _
  rw [if_pos hpref]
  have hdrop : ('/' :: ("/ Output:".data ++ mid ++ fence3 ++ post)).drop 10
      = mid ++ fence3 ++ post := by
    simp
  rw [hdrop]
  have hfd : fenceDist (mid ++ fence3 ++ post) = some (mid.length + 3) :=
    fenceDist_eval mid post hmid
  rw [hfd]
  show fence3 ++ robAux ("/ Output:".data ++ mid ++ fence3 ++ post) (9 + (mid.length + 3))
      = fence3 ++ robAux post 0
  have hlen2 : ("/ Output:".data ++ mid ++ fence3).length = 9 + (mid.length + 3) := by
    simp [fence3]
    omega
  have hskip := robAux_skip ("/ Output:".data ++ mid ++ fence3) post
  rw [hlen2] at hskip
  rw [hskip]

theorem robAux_no_marker : ∀ cs : List Char,
    hasSubstrChars outMarker cs = false → robAux cs 0 = cs := by
  intro cs
  induction cs with
  | nil => intro _; rfl
  | cons c cs ih =>
    intro h
    simp only [hasSubstrChars, Bool.or_eq_false_iff] at h
    rw [robAux_cons_zero, if_neg (by rw [h.1]; exact Bool.false_ne_true), ih h.2]

/-- Claim C8: every span from a literal `// Output:` marker through the next
closing ``` fence is replaced by the fence alone — the marker and the
intermediate text are deleted, the fence is retained — the content before
the marker is kept unchanged, scanning continues after the fence, and
content containing no marker at all is returned unchanged. -/
theorem remove_output_blocks_spec (pre mid post : List Char)
    (hpre : hasSubstrChars outMarker (pre ++ "// Output".data) = false)
    (hmid : hasSubstrChars fence3 (mid ++ "``".data) = false) :
    robAux (pre ++ outMarker ++ mid ++ fence3 ++ post) 0
      = pre ++ fence3 ++ robAux post 0
    ∧ (∀ cs : List Char, hasSubstrChars outMarker cs = false → robAux cs 0 = cs) := by
  refine ⟨?_, robAux_no_marker⟩
  induction pre with
  | nil => simpa using robAux_match mid post hmid
  | cons p pre ih =>
    have hsplit2 : hasSubstrChars outMarker
        (p :: (pre ++ "// Output".data)) = false := by
      simpa using hpre
    have hnotpref : outMarker.isPrefixOf (p :: (pre ++ "// Output".data)) = false := by
      simp only [hasSubstrChars, Bool.or_eq_false_iff] at hsplit2
      exact hsplit2.1
    have hpre' : hasSubstrChars outMarker (pre ++ "// Output".data) = false := by
      simp only [hasSubstrChars, Bool.or_eq_false_iff] at hsplit2
      exact hsplit2.2
    have hnp2 : outMarker.isPrefixOf
        (p :: (pre ++ (outMarker ++ mid ++ fence3 ++ post))) = false := by
      have hsh : p :: (pre ++ (outMarker ++ mid ++ fence3 ++ post))
          = (p :: (pre ++ "// Output".data)) ++ (':' :: (mid ++ fence3 ++ post)) := by
        simp [outMarker]
      rw [hsh, isPrefixOf_append_agnostic (p :: (pre ++ "// Output".data))
        (':' :: (mid ++ fence3 ++ post)) [] (by simp [outMarker])]
      simpa using hnotpref
    have hstep : robAux ((p :: pre) ++ outMarker ++ mid ++ fence3 ++ post) 0
        = p :: robAux (pre ++ outMarker ++ mid ++ fence3 ++ post) 0 := by
      have hsh3 : (p :: pre) ++ outMarker ++ mid ++ fence3 ++ post
          = p :: (pre ++ (outMarker ++ mid ++ fence3 ++ post)) := by
        simp
      rw [hsh3, robAux_cons_zero, if_neg (by rw [hnp2]; exact Bool.false_ne_true)]
      simp
    rw [hstep, ih hpre']
    simp

/-- Witness for `remove_output_blocks_spec` at the spec's example (an output
marker inside a code block followed by the closing fence). -/
theorem remove_output_blocks_spec_witness :
    robAux ("code\n".data ++ outMarker ++ "\nsome text\n".data ++ fence3
        ++ "\nafter".data) 0
      = "code\n".data ++ fence3 ++ robAux "\nafter".data 0 :=
  (remove_output_blocks_spec "code\n".data "\nsome text\n".data "\nafter".data
    (by decide) (by decide)).1

/-! ### `combine_files_into_mdx` (process_markdown.py lines 591–631)

The combined content is the concatenation of the input files' contents, each
followed by a blank line.  URLs are scanned with
`re.findall(r'https?://[^\s)>]+', combined)` and filtered by membership in
the `URL_TO_INFO` table (per the spec the table is a fixed configuration
input, so the embedding takes it as a parameter; `URL_TO_INFO` below is the
hardcoded table).  No match: diagnostic and `sys.exit(1)` (modeled as
`CombineError.sysExit`).  Otherwise the loop prepends one front-matter
header per processed URL and stops at the first URL containing `/sdk/` or
`/api/`, deriving the output file name; if no processed URL contains either
segment the loop ends with the local `output_filename` never assigned and
the `return` raises `UnboundLocalError`. -/

/-- Value type of the URL table (`{"title": ..., "sidebar_position": ...}`). -/
structure UrlInfo where
  title : String
  sidebar_position : Nat
deriving DecidableEq

/-- The hardcoded `URL_TO_INFO` table (insertion order preserved). -/
def URL_TO_INFO : List (String × UrlInfo) := [
  ("https://www.marketdata.app/docs/api/markets/status", ⟨"Status", 1⟩),
  ("https://www.marketdata.app/docs/api/indices/candles", ⟨"Candles", 1⟩),
  ("https://www.marketdata.app/docs/api/indices/quotes", ⟨"Quotes", 2⟩),
  ("https://www.marketdata.app/docs/api/stocks/candles", ⟨"Candles", 1⟩),
  ("https://www.marketdata.app/docs/api/stocks/bulkcandles", ⟨"Bulk Candles", 2⟩),
  ("https://www.marketdata.app/docs/api/stocks/quotes", ⟨"Quotes", 3⟩),
  ("https://www.marketdata.app/docs/api/stocks/bulkquotes", ⟨"Bulk Quotes", 4⟩),
  ("https://www.marketdata.app/docs/api/stocks/earnings", ⟨"Earnings", 5⟩),
  ("https://www.marketdata.app/docs/api/stocks/news", ⟨"News", 6⟩),
  ("https://www.marketdata.app/docs/api/options/expirations", ⟨"Expirations", 1⟩),
  ("https://www.marketdata.app/docs/api/options/lookup", ⟨"Lookup", 2⟩),
  ("https://www.marketdata.app/docs/api/options/strikes", ⟨"Strikes", 3⟩),
  ("https://www.marketdata.app/docs/api/options/chain", ⟨"Option Chain", 4⟩),
  ("https://www.marketdata.app/docs/api/options/quotes", ⟨"Quotes", 5⟩),
  ("https://www.marketdata.app/docs/sdk/go/client", ⟨"Client", 3⟩)]

/-- Python `URL_TO_INFO.get(url)` / `url in URL_TO_INFO`. -/
def tableGet (table : List (String × UrlInfo)) (u : String) : Option UrlInfo :=
  (table.find? (fun e => decide (e.1 = u))).map Prod.snd

/-- A character the URL regex may consume: `[^\s)>]`. -/
def isUrlChar (c : Char) : Bool :=
  !(c.isWhitespace || c = ')' || c = '>')

/-- Scanner for `re.findall(r'https?://[^\s)>]+', s)` (fuel-based; the
greedy alternative with `s` is tried first, as the regex engine does). -/
def urlScan : Nat → List Char → List String
  | 0, _ => []
  | _, [] => []
  | fuel + 1, c :: cs =>
    let schemeLen : Option Nat :=
      if ("https://".data).isPrefixOf (c :: cs) then some 8
      else if ("http://".data).isPrefixOf (c :: cs) then some 7
      else none
    match schemeLen with
    | some k =>
      let run := ((c :: cs).drop k).takeWhile isUrlChar
      if run.isEmpty then urlScan fuel cs
      else
        String.mk ((c :: cs).take k ++ run)
          :: urlScan fuel (((c :: cs).drop k).drop run.length)
    | none => urlScan fuel cs

/-- All URLs found in the content, in scan order. -/
def scanURLs (content : String) : List String :=
  urlScan (content.data.length + 1) content.data

/-- The combined buffer: each file content followed by a blank line. -/
def combinedContent (contents : List String) : String :=
  String.join (contents.map (fun c => c ++ "\n\n"))

/-- `urls_to_process = [url for url in urls_found if url in URL_TO_INFO]`. -/
def urls_to_process (table : List (String × UrlInfo)) (contents : List String) :
    List String :=
  (scanURLs (combinedContent contents)).filter (fun u => (tableGet table u).isSome)

/-- Failure modes of the combine step: `sys.exit(1)` with its diagnostic
(the URLs found and the expected-but-missing table keys), and the
`UnboundLocalError` on `output_filename`. -/
inductive CombineError where
  | sysExit (code : Nat) (urlsFound : List String) (missingExpected : List String)
  | unboundLocalError (varName : String)
deriving DecidableEq

/-- The front-matter header built for a table entry. -/
def headerText (info : UrlInfo) : String :=
  "---\ntitle: " ++ info.title ++ "\nsidebar_position: "
    ++ Nat.repr info.sidebar_position ++ "\n---\n\n"

/-- Python `s.split(sep)[-1]` (fuel-based split; `sep` non-empty). -/
def pySplitOnChars (sep : List Char) : Nat → List Char → List (List Char)
  | 0, l => [l]
  | fuel + 1, l =>
    match pyFindChars sep l with
    | some i => l.take i :: pySplitOnChars sep fuel (l.drop (i + sep.length))
    | none => [l]

/-- Python `s.split(sep)[-1]`. -/
def pySplitLast (s sep : String) : String :=
  String.mk ((pySplitOnChars sep.data (s.data.length + 1) s.data).getLastD s.data)

/-- Python `s.replace(old, new, 1)`. -/
def replaceFirst (s old new : String) : String :=
  match pyFindChars old.data s.data with
  | some i => String.mk (s.data.take i ++ new.data ++ s.data.drop (i + old.data.length))
  | none => s

/-- The import-statement insertion: when the buffer contains `<Tabs>`, the
two imports are inserted after the first front-matter delimiter. -/
def tabsAdjust (c : String) : String :=
  if strContains c "<Tabs>" then
    replaceFirst c "---\n\n"
      ("---\n\nimport Tabs from \"@theme/Tabs\";\nimport TabItem from \"@theme/TabItem\";\n\n")
  else c

/-- The `for url in urls_to_process` loop: prepend a header per URL; break
with the derived output name at the first URL containing `/sdk/` or `/api/`
(both branches use base name `go`; the `/sdk/` branch splits on `/go/`). -/
def combineLoop (table : List (String × UrlInfo)) :
    List String → String → String × Option String
  | [], c => (c, none)
  | u :: rest, c =>
    match tableGet table u with
    | some info =>
      let c' := headerText info ++ c
      if strContains u "/sdk/" then
        (c', some ("go/" ++ pySplitLast u "/go/" ++ ".mdx"))
      else if strContains u "/api/" then
        (c', some ("go/" ++ pySplitLast u "/api/" ++ ".mdx"))
      else combineLoop table rest c'
    | none => combineLoop table rest c

/-- Model of `combine_files_into_mdx(file_paths)` after the file reads (the
contents are passed directly; read failures are outside this model). -/
def combine_files_into_mdx (table : List (String × UrlInfo))
    (contents : List String) : Except CombineError (String × String) :=
  let combined := combinedContent contents
  let found := scanURLs combined
  let toProc := found.filter (fun u => (tableGet table u).isSome)
  if toProc.isEmpty then
    .error (.sysExit 1 found
      ((table.map Prod.fst).filter (fun k => !(found.contains k))))
  else
    match combineLoop table toProc combined with
    | (c, some fname) => .ok (tabsAdjust c, fname)
    | (_, none) => .error (.unboundLocalError "output_filename")

/-- Claim C5: when no URL found in the combined content is a key of the
static metadata table, the combine step terminates the run with exit code 1
and a diagnostic listing the URLs found and the expected-but-missing table
keys; no content/filename pair is produced, so no output file is written. -/
theorem combine_no_matching_url_exits (contents : List String)
    (h : ∀ u ∈ scanURLs (combinedContent contents), tableGet URL_TO_INFO u = none) :
    combine_files_into_mdx URL_TO_INFO contents
      = .error (.sysExit 1 (scanURLs (combinedContent contents))
          ((URL_TO_INFO.map Prod.fst).filter
            (fun k => !((scanURLs (combinedContent contents)).contains k)))) := by
  have hfilter : (scanURLs (combinedContent contents)).filter
      (fun u => (tableGet URL_TO_INFO u).isSome) = [] := by
    rw [List.filter_eq_nil_iff]
    intro a ha
    simp [h a ha]
  simp only [combine_files_into_mdx, hfilter, List.isEmpty_nil, if_true]

/-- Witness for `combine_no_matching_url_exits` on content with no URLs. -/
theorem combine_no_matching_url_exits_witness :
    combine_files_into_mdx URL_TO_INFO ["no urls here"]
      = .error (.sysExit 1 (scanURLs (combinedContent ["no urls here"]))
          ((URL_TO_INFO.map Prod.fst).filter
            (fun k => !((scanURLs (combinedContent ["no urls here"])).contains k)))) :=
  combine_no_matching_url_exits ["no urls here"] (by decide)

theorem combineLoop_snd_none (table : List (String × UrlInfo)) :
    ∀ (l : List String) (c : String),
      (∀ u ∈ l, strContains u "/sdk/" = false ∧ strContains u "/api/" = false) →
      (combineLoop table l c).2 = none := by
  intro l
  induction l with
  | nil => intro c _; rfl
  | cons u rest ih =>
    intro c h
    have h1 := (h u (List.mem_cons_self u rest)).1
    have h2 := (h u (List.mem_cons_self u rest)).2
    have hrest : ∀ v ∈ rest, strContains v "/sdk/" = false
        ∧ strContains v "/api/" = false :=
      fun v hv => h v (List.mem_cons_of_mem u hv)
    cases hu : tableGet table u with
    | some info =>
      simp only [combineLoop, hu, h1, h2, Bool.false_eq_true, if_false]
      exact ih _ hrest
    | none =>
      simp only [combineLoop, hu]
      exact ih _ hrest

/-- Claim C9: when at least one found URL matches the table but no matching
URL contains `/sdk/` or `/api/`, the loop never assigns `output_filename`
and the function raises `UnboundLocalError` instead of returning. -/
theorem combine_unassigned_output_filename (table : List (String × UrlInfo))
    (contents : List String)
    (hne : urls_to_process table contents ≠ [])
    (hseg : ∀ u ∈ urls_to_process table contents,
      strContains u "/sdk/" = false ∧ strContains u "/api/" = false) :
    combine_files_into_mdx table contents
      = .error (.unboundLocalError "output_filename") := by
  simp only [urls_to_process] at hne hseg
  have hloop := combineLoop_snd_none table
    ((scanURLs (combinedContent contents)).filter
      (fun u => (tableGet table u).isSome)) (combinedContent contents) hseg
  simp only [combine_files_into_mdx]
  rw [if_neg (by simpa [List.isEmpty_iff] using hne)]
  cases hcl : combineLoop table
      ((scanURLs (combinedContent contents)).filter
        (fun u => (tableGet table u).isSome)) (combinedContent contents) with
  | mk c fn =>
    rw [hcl] at hloop
    simp only at hloop
    subst hloop
    simp [hcl]

/-- Example table for C9's witness: one entry whose URL contains neither
`/sdk/` nor `/api/` (the table is a configuration input per the spec; every
key of the hardcoded table contains one of the segments, so the hypotheses
require an extended table). -/
def exTableC9 : List (String × UrlInfo) :=
  [("https://example.com/docs/other/x", ⟨"X", 1⟩)]

/-- Witness for `combine_unassigned_output_filename`. -/
theorem combine_unassigned_output_filename_witness :
    combine_files_into_mdx exTableC9 ["see https://example.com/docs/other/x end"]
      = .error (.unboundLocalError "output_filename") :=
  combine_unassigned_output_filename exTableC9
    ["see https://example.com/docs/other/x end"] (by decide) (by decide)

/-- The accumulated header prefix: one front-matter header per processed
URL, each prepended on top of the accumulator (so the most recently
processed URL's header comes first). -/
def prependHeaders (table : List (String × UrlInfo)) (l : List String)
    (c : String) : String :=
  l.foldl (fun acc v =>
    match tableGet table v with
    | some i => headerText i ++ acc
    | none => acc) c

theorem combineLoop_skip_prefix (table : List (String × UrlInfo)) :
    ∀ (us tail : List String) (c : String),
      (∀ v ∈ us, strContains v "/sdk/" = false ∧ strContains v "/api/" = false) →
      combineLoop table (us ++ tail) c
        = combineLoop table tail (prependHeaders table us c) := by
  intro us
  induction us with
  | nil => intro tail c _; rfl
  | cons v us' ih =>
    intro tail c h
    have h1 := (h v (List.mem_cons_self v us')).1
    have h2 := (h v (List.mem_cons_self v us')).2
    have hrest : ∀ w ∈ us', strContains w "/sdk/" = false
        ∧ strContains w "/api/" = false :=
      fun w hw => h w (List.mem_cons_of_mem v hw)
    cases hv : tableGet table v with
    | some info =>
      simp only [List.cons_append, combineLoop, hv, h1, h2,
        Bool.false_eq_true, if_false, List.append_eq]
      rw [ih tail _ hrest]
      simp only [prependHeaders, List.foldl_cons, hv]
    | none =>
      simp only [List.cons_append, combineLoop, hv, List.append_eq]
      rw [ih tail _ hrest]
      simp only [prependHeaders, List.foldl_cons, hv]

theorem prependHeaders_append_single (table : List (String × UrlInfo))
    (us : List String) (u : String) (c : String) (info : UrlInfo)
    (hinfo : tableGet table u = some info) :
    prependHeaders table (us ++ [u]) c
      = headerText info ++ prependHeaders table us c := by
  simp only [prependHeaders, List.foldl_append, List.foldl_cons, List.foldl_nil, hinfo]

/-- Example table and contents for C10: the first matching URL lacks both
segments, the second contains `/api/`. -/
def exTableC10 : List (String × UrlInfo) :=
  [("https://ex.com/docs/first/a", ⟨"A", 1⟩),
   ("https://ex.com/docs/api/b", ⟨"B", 2⟩)]

/-- Contents mentioning both example URLs in order. -/
def exContentsC10 : List String :=
  ["see https://ex.com/docs/first/a and https://ex.com/docs/api/b end"]

/-- Claim C10: the loop prepends one front-matter header per matching URL it
iterates over, up to and including the first URL containing `/sdk/` or
`/api/`; a matching URL skipped for lacking both segments still leaves its
header prepended, so when the first URL examined lacks both segments the
returned content begins with more than one front-matter block (the closing
conjunct exhibits this on a concrete table and contents). -/
theorem combine_headers_accumulate (table : List (String × UrlInfo))
    (contents : List String) (us : List String) (u : String) (rest : List String)
    (hsplit : urls_to_process table contents = us ++ u :: rest)
    (hskip : ∀ v ∈ us, strContains v "/sdk/" = false ∧ strContains v "/api/" = false)
    (hhit : strContains u "/sdk/" = true ∨ strContains u "/api/" = true) :
    combine_files_into_mdx table contents
      = .ok (tabsAdjust (prependHeaders table (us ++ [u]) (combinedContent contents)),
          if strContains u "/sdk/" then "go/" ++ pySplitLast u "/go/" ++ ".mdx"
          else "go/" ++ pySplitLast u "/api/" ++ ".mdx")
    ∧ strStartsWith
        (match combine_files_into_mdx exTableC10 exContentsC10 with
         | .ok r => r.1
         | .error _ => "")
        ("---\ntitle: B\nsidebar_position: 2\n---\n\n"
          ++ "---\ntitle: A\nsidebar_position: 1\n---\n\n") = true := by
  refine ⟨?_, by decide⟩
  have humem : u ∈ urls_to_process table contents := by
    rw [hsplit]
    exact List.mem_append_right _ (List.mem_cons_self _ _)
  have husome : (tableGet table u).isSome := by
    simp only [urls_to_process] at humem
    simpa using (List.mem_filter.mp humem).2
  obtain ⟨info, hinfo⟩ := Option.isSome_iff_exists.mp husome
  have hne : urls_to_process table contents ≠ [] := by
    rw [hsplit]
    simp
  simp only [urls_to_process] at hsplit hne
  simp only [combine_files_into_mdx]
  rw [if_neg (by simpa [List.isEmpty_iff] using hne)]
  rw [hsplit, combineLoop_skip_prefix table us (u :: rest) _ hskip]
  rcases Bool.eq_false_or_eq_true (strContains u "/sdk/") with hsdk | hsdk
  · simp only [combineLoop, hinfo, hsdk, if_true]
    rw [prependHeaders_append_single table us u _ info hinfo]
  · have hapi : strContains u "/api/" = true := by
      rcases hhit with h | h
      · rw [h] at hsdk
        exact absurd hsdk (by decide)
      · exact h
    simp only [combineLoop, hinfo, hsdk, Bool.false_eq_true, if_false, hapi, if_true]
    rw [prependHeaders_append_single table us u _ info hinfo]

/-- Witness for `combine_headers_accumulate` on the example table: the URL
examined first lacks both segments, its header remains, and the final
content carries two front-matter blocks. -/
theorem combine_headers_accumulate_witness :
    combine_files_into_mdx exTableC10 exContentsC10
      = .ok (tabsAdjust (prependHeaders exTableC10
            (["https://ex.com/docs/first/a"] ++ ["https://ex.com/docs/api/b"])
            (combinedContent exContentsC10)),
          if strContains "https://ex.com/docs/api/b" "/sdk/" then
            "go/" ++ pySplitLast "https://ex.com/docs/api/b" "/go/" ++ ".mdx"
          else "go/" ++ pySplitLast "https://ex.com/docs/api/b" "/api/" ++ ".mdx")
    ∧ strStartsWith
        (match combine_files_into_mdx exTableC10 exContentsC10 with
         | .ok r => r.1
         | .error _ => "")
        ("---\ntitle: B\nsidebar_position: 2\n---\n\n"
          ++ "---\ntitle: A\nsidebar_position: 1\n---\n\n") = true :=
  combine_headers_accumulate exTableC10 exContentsC10
    ["https://ex.com/docs/first/a"] "https://ex.com/docs/api/b" []
    (by decide) (by decide) (by decide)

/-! ### `find_method_blocks_and_relocate` (process_markdown.py lines 160–231)

One linear scan collects state: the first `<a`-prefixed stripped line
containing `Request` fixes `type_name`; on the next iteration the first
following line containing `## type` fixes `type_end_line` (or `len - 1`);
every line whose stripped form starts `<a name="{type_name}.` opens a method
block ending just before the next `<a`-prefixed line — when no such line
follows, the function-scoped `end_line_number` keeps its previous (stale)
value, and an unbound use is a Python `NameError`.  Blocks whose anchor is
exactly `{type_name}{suffix}` for a suffix in `.Get`/`.Raw`/`.Packed` enter
a dict keyed by suffix.  Afterwards: the execution-methods header is
inserted at `type_end_line`, the block contents are inserted as single list
elements (while the insertion cursor advances by their LINE counts), the
original blocks are deleted in descending KEY order (`.Raw`, `.Packed`,
`.Get`) — not descending start-line order — and the setter-methods header is
inserted at `first_method_line_number - 1`.  `name.split('"')[1]` raises
`IndexError` when the anchor has no quote, hence the `Except` result. -/

/-- The per-method-block record (`method_blocks[suffix]` in the source). -/
structure MethodInfo where
  type_name : String
  start_line_number : Nat
  end_line_number : Nat
  content : String

/-- Scan state of `find_method_blocks_and_relocate`'s main loop. -/
structure MBState where
  type_definition_found : Bool
  type_name : String
  type_end_loop : Bool
  type_end_line : Nat
  end_line_number : Option Nat
  first_method_line_number : Option Nat
  method_blocks : List (String × MethodInfo)

/-- Python dict assignment: overwrite in place, insertion order kept. -/
def dictInsert (k : String) (v : MethodInfo) :
    List (String × MethodInfo) → List (String × MethodInfo)
  | [] => [(k, v)]
  | (k', v') :: rest =>
    if k' = k then (k, v) :: rest else (k', v') :: dictInsert k v rest

/-- Python dict lookup. -/
def dictLookup (k : String) (d : List (String × MethodInfo)) : Option MethodInfo :=
  (d.find? (fun e => decide (e.1 = k))).map Prod.snd

/-- One iteration of the `for i, line in enumerate(lines)` loop. -/
def mbStep (lines : List String) (st : MBState) (i : Nat) : Except String MBState :=
  let line := lines.getD i ""
  let stripped := pyStrip line
  if !st.type_definition_found && strStartsWith stripped "<a"
      && strContains stripped "Request" then
    match (pySplitOnChars ['"'] (stripped.data.length + 1) stripped.data).get? 1 with
    | some nm => .ok { st with type_definition_found := true, type_name := String.mk nm }
    | none => .error "IndexError: list index out of range"
  else
    let st :=
      if st.type_definition_found && !st.type_end_loop then
        { st with
          type_end_line :=
            match findIdxFrom (fun l => strContains l "## type") lines (i + 1) with
            | some j => j
            | none => lines.length - 1,
          type_end_loop := true }
      else st
    if st.type_definition_found
        && strStartsWith stripped ("<a name=\"" ++ st.type_name ++ ".") then
      let newEnd : Option Nat :=
        match findIdxFrom (fun l => strStartsWith (pyStrip l) "<a") lines (i + 1) with
        | some j => some (j - 1)
        | none => st.end_line_number
      let st := { st with
        end_line_number := newEnd,
        first_method_line_number :=
          match st.first_method_line_number with
          | none => some i
          | some f => if i < f then some i else some f }
      match [".Get", ".Raw", ".Packed"].find? (fun suf =>
          strContains stripped ("<a name=\"" ++ st.type_name ++ suf ++ "\"></a>")) with
      | some suf =>
        match st.end_line_number with
        | some e =>
          let info : MethodInfo :=
            { type_name := st.type_name, start_line_number := i, end_line_number := e,
              content := pyJoinNl (pySlice i (e + 1) lines) }
          .ok { st with method_blocks := dictInsert suf info st.method_blocks }
        | none => .error "NameError: name end_line_number is not defined"
      | none => .ok st
    else .ok st

/-- The whole scan. -/
def mbScan (lines : List String) : Except String MBState :=
  (List.range lines.length).foldlM (mbStep lines)
    ⟨false, "", false, 0, none, none, []⟩

/-- Model of `find_method_blocks_and_relocate(content)`. -/
def find_method_blocks_and_relocate (content : String) : Except String String := do
  let lines0 := pySplitNl content
  let st ← mbScan lines0
  let sorted_methods := [".Get", ".Packed", ".Raw"].filterMap
    (fun k => (dictLookup k st.method_blocks).map (fun v => (k, v)))
  let lines1 :=
    if st.type_definition_found then
      pyInsert (st.type_end_line : Int)
        ("## " ++ st.type_name ++ " Execution Methods") lines0
    else lines0
  let inserted := sorted_methods.foldl
    (fun (acc : List String × Nat) kv =>
      (pyInsert ((acc.2 + 1 : Nat) : Int) kv.2.content acc.1,
       acc.2 + (pySplitNl kv.2.content).length))
    (lines1, st.type_end_line)
  let lines2 := inserted.1
  let lines3 := ([".Raw", ".Packed", ".Get"].filterMap
      (fun k => (dictLookup k st.method_blocks).map (fun v => (k, v)))).foldl
    (fun ls kv => pyDelRange kv.2.start_line_number (kv.2.end_line_number + 1) ls)
    lines2
  let lines4 :=
    if st.type_definition_found then
      match st.first_method_line_number with
      | some f => pyInsert ((f : Int) - 1)
          ("## " ++ st.type_name ++ " Setter Methods") lines3
      | none => lines3
    else lines3
  return pyJoinNl lines4

/-- Claim C1's scenario-input: a `FooRequest` type section with method
anchors in document order `[.Raw, .Get, .Packed]`, followed by an unrelated
anchor, trailing text and the next `## type` heading. -/
def exDocC1 : String :=
  "head\n<a name=\"FooRequest\"></a>\n## type FooRequest\nintro\n"
    ++ "<a name=\"FooRequest.Raw\"></a>\n<a name=\"FooRequest.Get\"></a>\n"
    ++ "<a name=\"FooRequest.Packed\"></a>\n<a name=\"Zeta\"></a>\ntail\n"
    ++ "## type Next\nafter"

/-- The actual output of the code on `exDocC1`. -/
def mangledC1 : String :=
  "head\n<a name=\"FooRequest\"></a>\n## type FooRequest\n"
    ++ "## FooRequest Setter Methods\nintro\n<a name=\"FooRequest.Get\"></a>\ntail\n"
    ++ "## FooRequest Execution Methods\n<a name=\"FooRequest.Get\"></a>\n"
    ++ "<a name=\"FooRequest.Packed\"></a>\n<a name=\"FooRequest.Raw\"></a>\n"
    ++ "## type Next\nafter"

set_option maxRecDepth 20000 in
/-- Claim C1, evaluation at the failing input: the three blocks are re-emitted
under the `## FooRequest Execution Methods` heading in order
`[.Get, .Packed, .Raw]`, but the original positions are NOT correctly
removed — the deletion pass iterates the blocks in descending KEY order
(`.Raw`, `.Packed`, `.Get`) instead of descending start-line order, so with
document order `[.Raw, .Get, .Packed]` it deletes shifted ranges: the
original `.Get` anchor line survives (it occurs twice in the output) and the
unrelated line `<a name="Zeta"></a>` is deleted, contradicting the code's
own comment "Delete the original method blocks in reverse order to maintain
correct line numbers" and the claim. -/
theorem find_method_blocks_relocate_eval :
    find_method_blocks_and_relocate exDocC1 = .ok mangledC1
    ∧ (pySplitNl mangledC1).count "<a name=\"FooRequest.Get\"></a>" = 2
    ∧ "<a name=\"Zeta\"></a>" ∈ pySplitNl exDocC1
    ∧ "<a name=\"Zeta\"></a>" ∉ pySplitNl mangledC1 :=
  ⟨rfl, by decide, by decide, by decide⟩
